import Mathlib

/-!
# Verification of the `rsaoeap` RSA-OAEP cipher wrapper

Shallow embedding of `pkg/trisa/crypto/rsaoeap/rsaoeap.go` and of the parts of
Go's standard library (`crypto/rsa` OAEP, following RFC 8017) that it calls.

Modelling conventions:
* Byte strings are `List Nat` with every element `< 256`.
* `math/big` integers are `Nat`; big-endian conversions `bytesToNat` / `natToBytes`
  model `big.Int.SetBytes` / `big.Int.FillBytes`.
* The hash passed to the OAEP routines (`sha512.New()` in the source, whose
  `Size()` is 64) is an external collaborator and is modelled as an abstract
  function `hash : List Nat → List Nat` together with its size `hLen`; theorems
  hypothesise that every output has length `hLen` and consists of bytes.
* The random source `rand.Reader` is modelled by passing the `hLen` seed bytes
  that `EncryptOAEP` reads from it as an explicit argument.
* A Go call either returns a value, returns an error, or panics (nil pointer
  dereference); `GoResult` has one constructor for each outcome.
-/

/-- Error string of `rsa.ErrMessageTooLong`. -/
def errMessageTooLong : String := "crypto/rsa: message too long for RSA public key size"

/-- Error string of `rsa.ErrDecryption`. -/
def errDecryption : String := "crypto/rsa: decryption error"

/-- Error string of `crypto/rsa.errPublicExponentSmall` (from `checkPub`). -/
def errPublicExponentSmall : String := "crypto/rsa: public exponent too small"

/-- Error string of `crypto/rsa.errPublicExponentLarge` (from `checkPub`). -/
def errPublicExponentLarge : String := "crypto/rsa: public exponent too large"

/-- Error string returned by `RSA.Decrypt` in `rsaoeap.go` when `c.priv == nil`. -/
def errMissingPrivateKey : String := "private key required for decryption"

/-- Message of the Go runtime panic raised on a nil pointer dereference. -/
def goNilPointerPanic : String := "runtime error: invalid memory address or nil pointer dereference"

/-- `rsa.PublicKey`: modulus `N` and exponent `E`.  (`N` is a `*big.Int` in Go;
a `nil` modulus inside a non-nil `PublicKey` is not representable here.) -/
structure PublicKey where
  n : Nat
  e : Nat
deriving DecidableEq, Repr

/-- `rsa.PrivateKey`: the embedded `PublicKey` and the private exponent `D`.
(The CRT fields `Primes`/`Precomputed` only speed up the same modular
exponentiation and are omitted.) -/
structure PrivateKey where
  pub : PublicKey
  d : Nat
deriving DecidableEq, Repr

/-- Outcome of a Go call: a normal return, an error return, or a runtime panic. -/
inductive GoResult (α : Type) where
  | ok : α → GoResult α
  | error : String → GoResult α
  | panic : String → GoResult α
deriving DecidableEq, Repr

/-- Lift a non-panicking fallible computation into `GoResult`. -/
def GoResult.ofExcept {α : Type} : Except String α → GoResult α
  | .ok a => .ok a
  | .error e => .error e

/-- Little-endian byte-list to natural number. -/
def bytesToNatLE : List Nat → Nat
  | [] => 0
  | b :: l => b + 256 * bytesToNatLE l

/-- Little-endian bytes (exactly `k` of them) of a natural number. -/
def natToBytesLE : Nat → Nat → List Nat
  | 0, _ => []
  | k + 1, n => n % 256 :: natToBytesLE k (n / 256)

/-- Big-endian interpretation of a byte list, as `big.Int.SetBytes`. -/
def bytesToNat (l : List Nat) : Nat := bytesToNatLE l.reverse

/-- Big-endian `k`-byte encoding of a natural number, as `big.Int.FillBytes`
into a `k`-byte buffer. -/
def natToBytes (k n : Nat) : List Nat := (natToBytesLE k n).reverse

theorem natToBytesLE_length (k : Nat) : ∀ n, (natToBytesLE k n).length = k := by
  induction k with
  | zero => intro n; rfl
  | succ k ih => intro n; simp [natToBytesLE, ih]

theorem natToBytes_length (k n : Nat) : (natToBytes k n).length = k := by
  simp [natToBytes, natToBytesLE_length]

theorem natToBytesLE_lt (k : Nat) : ∀ n, ∀ b ∈ natToBytesLE k n, b < 256 := by
  induction k with
  | zero => intro n b hb; simp [natToBytesLE] at hb
  | succ k ih =>
    intro n b hb
    simp only [natToBytesLE, List.mem_cons] at hb
    rcases hb with h | h
    · subst h; exact Nat.mod_lt _ (by omega)
    · exact ih _ b h

theorem natToBytes_lt (k n : Nat) : ∀ b ∈ natToBytes k n, b < 256 := by
  intro b hb
  exact natToBytesLE_lt k n b (List.mem_reverse.mp hb)

theorem bytesToNatLE_natToBytesLE (k : Nat) :
    ∀ n, n < 256 ^ k → bytesToNatLE (natToBytesLE k n) = n := by
  induction k with
  | zero => intro n hn; interval_cases n; rfl
  | succ k ih =>
    intro n hn
    have hdiv : n / 256 < 256 ^ k := by
      rw [Nat.div_lt_iff_lt_mul (by omega : 0 < 256)]
      calc n < 256 ^ (k + 1) := hn
        _ = 256 ^ k * 256 := by ring
    simp only [natToBytesLE, bytesToNatLE, ih (n / 256) hdiv]
    omega

theorem natToBytesLE_bytesToNatLE :
    ∀ l : List Nat, (∀ b ∈ l, b < 256) → natToBytesLE l.length (bytesToNatLE l) = l := by
  intro l
  induction l with
  | nil => intro _; rfl
  | cons b l ih =>
    intro hlt
    have hb : b < 256 := hlt b (List.mem_cons_self b l)
    have hmod : (b + 256 * bytesToNatLE l) % 256 = b := by
      rw [Nat.add_mul_mod_self_left]; exact Nat.mod_eq_of_lt hb
    have hdiv : (b + 256 * bytesToNatLE l) / 256 = bytesToNatLE l := by
      rw [Nat.add_mul_div_left _ _ (by omega : 0 < 256), Nat.div_eq_of_lt hb]; omega
    simp only [List.length_cons, natToBytesLE, bytesToNatLE, hmod, hdiv]
    exact congrArg (b :: ·) (ih fun x hx => hlt x (List.mem_cons_of_mem _ hx))

theorem bytesToNatLE_lt :
    ∀ l : List Nat, (∀ b ∈ l, b < 256) → bytesToNatLE l < 256 ^ l.length := by
  intro l
  induction l with
  | nil => intro _; simp [bytesToNatLE]
  | cons b l ih =>
    intro hlt
    have hb : b < 256 := hlt b (List.mem_cons_self b l)
    have := ih fun x hx => hlt x (List.mem_cons_of_mem _ hx)
    simp only [bytesToNatLE, List.length_cons, pow_succ]
    calc b + 256 * bytesToNatLE l < 256 + 256 * bytesToNatLE l := by omega
      _ = 256 * (bytesToNatLE l + 1) := by ring
      _ ≤ 256 * 256 ^ l.length := by
          have : bytesToNatLE l + 1 ≤ 256 ^ l.length := this
          exact Nat.mul_le_mul_left _ this
      _ = 256 ^ l.length * 256 := by ring

theorem bytesToNat_natToBytes (k n : Nat) (hn : n < 256 ^ k) :
    bytesToNat (natToBytes k n) = n := by
  simp only [bytesToNat, natToBytes, List.reverse_reverse]
  exact bytesToNatLE_natToBytesLE k n hn

theorem natToBytes_bytesToNat (l : List Nat) (k : Nat) (hk : l.length = k)
    (hlt : ∀ b ∈ l, b < 256) : natToBytes k (bytesToNat l) = l := by
  subst hk
  have hrev : ∀ b ∈ l.reverse, b < 256 := fun b hb => hlt b (List.mem_reverse.mp hb)
  have hlen : l.reverse.length = l.length := List.length_reverse l
  simp only [natToBytes, bytesToNat]
  rw [← hlen, natToBytesLE_bytesToNatLE l.reverse hrev, List.reverse_reverse]

theorem bytesToNat_lt (l : List Nat) (hlt : ∀ b ∈ l, b < 256) :
    bytesToNat l < 256 ^ l.length := by
  have := bytesToNatLE_lt l.reverse fun b hb => hlt b (List.mem_reverse.mp hb)
  simpa [bytesToNat, List.length_reverse] using this

theorem bytesToNatLE_append (xs ys : List Nat) :
    bytesToNatLE (xs ++ ys) = bytesToNatLE xs + 256 ^ xs.length * bytesToNatLE ys := by
  induction xs with
  | nil => simp [bytesToNatLE]
  | cons b xs ih =>
    simp only [List.cons_append, bytesToNatLE, List.length_cons, pow_succ]
    rw [show xs.append ys = xs ++ ys from rfl, ih]
    ring

theorem bytesToNat_cons_zero (l : List Nat) : bytesToNat (0 :: l) = bytesToNat l := by
  simp [bytesToNat, List.reverse_cons, bytesToNatLE_append, bytesToNatLE]

/-- Fuel-driven byte length; `byteLenAux fuel n` is the byte length of `n`
whenever `n ≤ fuel`. -/
def byteLenAux : Nat → Nat → Nat
  | 0, _ => 0
  | fuel + 1, n => if n = 0 then 0 else byteLenAux fuel (n / 256) + 1

/-- Byte length of a natural number: `rsa.PublicKey.Size()`, i.e.
`(n.BitLen() + 7) / 8` for the modulus `n`. -/
def byteLen (n : Nat) : Nat := byteLenAux n n

theorem byteLenAux_eq (fuel₁ : Nat) :
    ∀ fuel₂ n, n ≤ fuel₁ → n ≤ fuel₂ → byteLenAux fuel₁ n = byteLenAux fuel₂ n := by
  induction fuel₁ with
  | zero =>
    intro fuel₂ n h1 _
    have : n = 0 := by omega
    subst this
    cases fuel₂ <;> simp [byteLenAux]
  | succ fuel₁ ih =>
    intro fuel₂ n h1 h2
    by_cases hn : n = 0
    · subst hn; cases fuel₂ <;> simp [byteLenAux]
    · have hn1 : 1 ≤ n := by omega
      obtain ⟨fuel₂', rfl⟩ : ∃ m, fuel₂ = m + 1 := ⟨fuel₂ - 1, by omega⟩
      simp only [byteLenAux, if_neg hn]
      have hd : n / 256 ≤ n - 1 := by
        have := Nat.div_le_self n 256
        have : n / 256 < n := Nat.div_lt_self (by omega) (by omega)
        omega
      rw [ih fuel₂' (n / 256) (by omega) (by omega)]

theorem byteLenAux_lt (fuel : Nat) : ∀ n, n ≤ fuel → n < 256 ^ byteLenAux fuel n := by
  induction fuel with
  | zero => intro n h; interval_cases n; simp [byteLenAux]
  | succ fuel ih =>
    intro n h
    by_cases hn : n = 0
    · subst hn; simp [byteLenAux]
    · simp only [byteLenAux, if_neg hn, pow_succ]
      have hd : n / 256 ≤ fuel := by
        have : n / 256 < n := Nat.div_lt_self (by omega) (by omega)
        omega
      have := ih (n / 256) hd
      have h256 : n / 256 * 256 + 255 ≥ n := by omega
      calc n ≤ n / 256 * 256 + 255 := by
              have := Nat.div_add_mod n 256
              have := Nat.mod_lt n (show 0 < 256 by omega)
              omega
        _ < 256 ^ byteLenAux fuel (n / 256) * 256 := by
              have h1 : n / 256 + 1 ≤ 256 ^ byteLenAux fuel (n / 256) := this
              calc n / 256 * 256 + 255 < (n / 256 + 1) * 256 := by omega
                _ ≤ 256 ^ byteLenAux fuel (n / 256) * 256 := Nat.mul_le_mul_right _ h1

theorem byteLen_lt (n : Nat) : n < 256 ^ byteLen n := byteLenAux_lt n n (le_refl n)

theorem byteLenAux_le (fuel : Nat) :
    ∀ n, n ≤ fuel → 0 < n → 256 ^ (byteLenAux fuel n - 1) ≤ n := by
  induction fuel with
  | zero => intro n h hp; omega
  | succ fuel ih =>
    intro n h hp
    have hn : n ≠ 0 := by omega
    simp only [byteLenAux, if_neg hn, Nat.add_sub_cancel]
    by_cases hz : n / 256 = 0
    · simp [hz, byteLenAux]
      cases fuel <;> simp [byteLenAux, hz] <;> omega
    · have hd : n / 256 ≤ fuel := by
        have : n / 256 < n := Nat.div_lt_self (by omega) (by omega)
        omega
      have := ih (n / 256) hd (by omega)
      obtain ⟨m, hm⟩ : ∃ m, byteLenAux fuel (n / 256) = m + 1 := by
        refine ⟨byteLenAux fuel (n / 256) - 1, ?_⟩
        rcases fuel with _ | fuel
        · omega
        · simp only [byteLenAux, if_neg hz]; omega
      rw [hm]
      rw [hm] at this
      simp only [Nat.add_sub_cancel] at this
      calc 256 ^ (m + 1) = 256 ^ m * 256 := by ring
        _ ≤ n / 256 * 256 := Nat.mul_le_mul_right _ this
        _ ≤ n := by
            have := Nat.div_add_mod n 256
            omega

theorem byteLen_le (n : Nat) (hp : 0 < n) : 256 ^ (byteLen n - 1) ≤ n :=
  byteLenAux_le n n (le_refl n) hp

theorem byteLen_pos (n : Nat) (hp : 0 < n) : 0 < byteLen n := by
  by_contra h
  have h0 : byteLen n = 0 := by omega
  have := byteLen_lt n
  rw [h0] at this
  simp at this
  omega

/-- Byte-wise XOR of two buffers (`subtle.XORBytes` restricted to equal-length
use inside `mgf1XOR`); truncates to the shorter input. -/
def xorBytes (a b : List Nat) : List Nat := List.zipWith (fun x y => x ^^^ y) a b

theorem xorBytes_length (a b : List Nat) :
    (xorBytes a b).length = min a.length b.length := by
  simp [xorBytes]

theorem xorBytes_cancel : ∀ a b : List Nat, a.length ≤ b.length →
    xorBytes (xorBytes a b) b = a := by
  intro a
  induction a with
  | nil => intro b _; rfl
  | cons x xs ih =>
    intro b hb
    rcases b with _ | ⟨y, ys⟩
    · simp at hb
    · simp only [xorBytes, List.zipWith_cons_cons]
      have : (x ^^^ y) ^^^ y = x := by
        rw [Nat.xor_assoc, Nat.xor_self, Nat.xor_zero]
      rw [this]
      have := ih ys (by simpa using hb)
      simpa [xorBytes] using this

theorem xorBytes_lt : ∀ a b : List Nat, (∀ x ∈ a, x < 256) → (∀ x ∈ b, x < 256) →
    ∀ x ∈ xorBytes a b, x < 256 := by
  intro a
  induction a with
  | nil => intro b _ _ x hx; simp [xorBytes] at hx
  | cons y ys ih =>
    intro b ha hb x hx
    rcases b with _ | ⟨z, zs⟩
    · simp [xorBytes] at hx
    · simp only [xorBytes, List.zipWith_cons_cons, List.mem_cons] at hx
      have h8 : (256 : Nat) = 2 ^ 8 := by norm_num
      rcases hx with rfl | hx
      · rw [h8]
        exact Nat.xor_lt_two_pow
          (by rw [← h8]; exact ha y (List.mem_cons_self _ _))
          (by rw [← h8]; exact hb z (List.mem_cons_self _ _))
      · exact ih zs (fun u hu => ha u (List.mem_cons_of_mem _ hu))
          (fun u hu => hb u (List.mem_cons_of_mem _ hu)) x hx

/-- The 4-byte big-endian counter block appended to the seed in each MGF1
iteration (`incCounter` in Go's `crypto/rsa`). -/
def counter32 (i : Nat) : List Nat :=
  [i / 16777216 % 256, i / 65536 % 256, i / 256 % 256, i % 256]

/-- MGF1 mask output of length `outLen` (the mask that `mgf1XOR` XORs into its
`out` buffer): concatenated hashes of `seed ++ counter`, truncated. -/
def mgf1 (hash : List Nat → List Nat) (hLen outLen : Nat) (seed : List Nat) : List Nat :=
  (((List.range ((outLen + hLen - 1) / hLen)).map fun i => hash (seed ++ counter32 i)).flatten).take outLen

theorem le_ceil_div_mul (a b : Nat) (hb : 0 < b) : a ≤ (a + b - 1) / b * b := by
  have hdm := Nat.div_add_mod (a + b - 1) b
  have hml := Nat.mod_lt (a + b - 1) hb
  have : b * ((a + b - 1) / b) = (a + b - 1) / b * b := Nat.mul_comm _ _
  omega

theorem mgf1_length (hash : List Nat → List Nat) (hLen outLen : Nat) (seed : List Nat)
    (hHash : ∀ l, (hash l).length = hLen) (hhLen : 0 < hLen) :
    (mgf1 hash hLen outLen seed).length = outLen := by
  simp only [mgf1, List.length_take, List.length_flatten, List.map_map]
  have hmap : ((List.range ((outLen + hLen - 1) / hLen)).map
      (List.length ∘ fun i => hash (seed ++ counter32 i))) =
      (List.range ((outLen + hLen - 1) / hLen)).map fun _ => hLen := by
    apply List.map_congr_left
    intro i _
    simp [hHash]
  rw [hmap, List.map_const', List.sum_replicate, List.length_range, smul_eq_mul]
  have := le_ceil_div_mul outLen hLen hhLen
  omega

theorem mgf1_lt (hash : List Nat → List Nat) (hLen outLen : Nat) (seed : List Nat)
    (hHash : ∀ l, ∀ b ∈ hash l, b < 256) :
    ∀ b ∈ mgf1 hash hLen outLen seed, b < 256 := by
  intro b hb
  simp only [mgf1] at hb
  have hb' := List.mem_of_mem_take hb
  rw [List.mem_flatten] at hb'
  obtain ⟨l, hl, hbl⟩ := hb'
  rw [List.mem_map] at hl
  obtain ⟨i, _, rfl⟩ := hl
  exact hHash _ b hbl

/-- The constant-time scan over the bytes after `lHash` in the unmasked `DB`:
returns the index of the `0x01` separator if all bytes before it are zero,
and `none` if a nonzero non-`0x01` byte occurs first or no separator exists
(`lookingForIndex`/`invalid` flags in Go's `decryptOAEP`). -/
def findSep : List Nat → Option Nat
  | [] => none
  | b :: l => if b = 1 then some 0 else if b = 0 then (findSep l).map (· + 1) else none

theorem findSep_replicate (z : Nat) (msg : List Nat) :
    findSep (List.replicate z 0 ++ 1 :: msg) = some z := by
  induction z with
  | zero => simp [findSep]
  | succ z ih => simp [List.replicate_succ, findSep, ih]

theorem drop_replicate_succ (z : Nat) (msg : List Nat) :
    (List.replicate z 0 ++ 1 :: msg).drop (z + 1) = msg := by
  induction z with
  | zero => simp
  | succ z ih => simpa [List.replicate_succ] using ih

/-- Fermat step of RSA correctness: modulo a prime `p` with `p - 1` dividing
`ed - 1`, exponentiation by `ed` is the identity. -/
theorem pow_modEq_self_of_prime (p a ed : Nat) (hp : p.Prime) (h1 : 1 ≤ ed)
    (hdvd : (p - 1) ∣ ed - 1) : a ^ ed ≡ a [MOD p] := by
  haveI : Fact p.Prime := ⟨hp⟩
  obtain ⟨t, ht⟩ := hdvd
  have hp1 : 1 ≤ p := hp.one_lt.le
  have hed : ed = 1 + (p - 1) * t := by omega
  have hz : (a : ZMod p) ^ ed = (a : ZMod p) := by
    by_cases hA : (a : ZMod p) = 0
    · rw [hA, zero_pow (by omega : ed ≠ 0)]
    · rw [hed, pow_add, pow_one, pow_mul, ZMod.pow_card_sub_one_eq_one hA, one_pow, mul_one]
  have := (ZMod.natCast_eq_natCast_iff (a ^ ed) a p).mp (by push_cast; exact hz)
  exact this

/-- RSA correctness via the Chinese remainder theorem: for distinct primes
`p ≠ q` and `e * d ≡ 1 (mod (p-1)(q-1))`, exponentiation by `e * d` is the
identity modulo `p * q`. -/
theorem rsa_modEq (p q e d a : Nat) (hp : p.Prime) (hq : q.Prime) (hpq : p ≠ q)
    (h1 : 1 ≤ e * d) (hed : e * d ≡ 1 [MOD (p - 1) * (q - 1)]) :
    a ^ (e * d) ≡ a [MOD p * q] := by
  have hdvd : (p - 1) * (q - 1) ∣ e * d - 1 := (Nat.modEq_iff_dvd' h1).mp hed.symm
  have hP : a ^ (e * d) ≡ a [MOD p] :=
    pow_modEq_self_of_prime p a _ hp h1 (dvd_trans (Dvd.intro (q - 1) rfl) hdvd)
  have hQ : a ^ (e * d) ≡ a [MOD q] :=
    pow_modEq_self_of_prime q a _ hq h1
      (dvd_trans (Dvd.intro_left (p - 1) rfl) hdvd)
  exact (Nat.modEq_and_modEq_iff_modEq_mul ((Nat.coprime_primes hp hq).mpr hpq)).mp ⟨hP, hQ⟩

/-- Decrypting an encryption recovers any `m < p * q` exactly: the raw RSA
round trip underlying `encrypt`/`decrypt` in `crypto/rsa`. -/
theorem rsa_correct (p q e d m : Nat) (hp : p.Prime) (hq : q.Prime) (hpq : p ≠ q)
    (h1 : 1 ≤ e * d) (hed : e * d ≡ 1 [MOD (p - 1) * (q - 1)]) (hm : m < p * q) :
    (m ^ e % (p * q)) ^ d % (p * q) = m := by
  have h := rsa_modEq p q e d m hp hq hpq h1 hed
  calc (m ^ e % (p * q)) ^ d % (p * q)
      = (m ^ e) ^ d % (p * q) := by rw [← Nat.pow_mod]
    _ = m ^ (e * d) % (p * q) := by rw [← pow_mul]
    _ = m % (p * q) := h
    _ = m := Nat.mod_eq_of_lt hm

/-- `checkPub` from `crypto/rsa`: validates the public exponent.  (The `N == nil`
branch is unrepresentable here since the modulus is a `Nat`.) -/
def checkPub (pk : PublicKey) : Option String :=
  if pk.e < 2 then some errPublicExponentSmall
  else if pk.e > 2 ^ 31 - 1 then some errPublicExponentLarge
  else none

/-- `DB = lHash ‖ PS ‖ 0x01 ‖ msg` built by `EncryptOAEP` (label is empty in
`rsaoeap.go`, so `lHash = hash([])`). -/
def oaepDB (hash : List Nat → List Nat) (hLen k : Nat) (msg : List Nat) : List Nat :=
  hash [] ++ List.replicate (k - msg.length - 2 * hLen - 2) 0 ++ 1 :: msg

/-- `maskedDB = DB ⊕ MGF1(seed, len DB)`: the first `mgf1XOR` call. -/
def oaepMaskedDB (hash : List Nat → List Nat) (hLen k : Nat) (msg seed : List Nat) : List Nat :=
  xorBytes (oaepDB hash hLen k msg)
    (mgf1 hash hLen (oaepDB hash hLen k msg).length seed)

/-- `maskedSeed = seed ⊕ MGF1(maskedDB, hLen)`: the second `mgf1XOR` call. -/
def oaepMaskedSeed (hash : List Nat → List Nat) (hLen k : Nat) (msg seed : List Nat) : List Nat :=
  xorBytes seed (mgf1 hash hLen seed.length (oaepMaskedDB hash hLen k msg seed))

/-- The encoded message `EM = 0x00 ‖ maskedSeed ‖ maskedDB` of `EncryptOAEP`. -/
def oaepEM (hash : List Nat → List Nat) (hLen k : Nat) (msg seed : List Nat) : List Nat :=
  0 :: (oaepMaskedSeed hash hLen k msg seed ++ oaepMaskedDB hash hLen k msg seed)

/-- `rsa.EncryptOAEP(hash, random, pub, msg, nil)`: check the public key, check
the size bound `len(msg) ≤ k - 2*hLen - 2` (Go `int` arithmetic, hence the
`Int` comparison), pad, and exponentiate.  `seed` is the randomness read from
`random`. -/
def encryptOAEP (hash : List Nat → List Nat) (hLen : Nat) (pk : PublicKey)
    (msg seed : List Nat) : Except String (List Nat) :=
  match checkPub pk with
  | some err => .error err
  | none =>
    let k := byteLen pk.n
    if (msg.length : Int) > (k : Int) - 2 * (hLen : Int) - 2 then .error errMessageTooLong
    else .ok (natToBytes k (bytesToNat (oaepEM hash hLen k msg seed) ^ pk.e % pk.n))

/-- Seed recovered by `decryptOAEP` from an encoded message: unmask
`em[1:hLen+1]` with `MGF1(em[hLen+1:], hLen)`. -/
def oaepSeedRec (hash : List Nat → List Nat) (hLen : Nat) (em : List Nat) : List Nat :=
  xorBytes ((em.drop 1).take hLen)
    (mgf1 hash hLen ((em.drop 1).take hLen).length (em.drop (1 + hLen)))

/-- `DB` recovered by `decryptOAEP`: unmask `em[hLen+1:]` with
`MGF1(recovered seed, len)`. -/
def oaepDBRec (hash : List Nat → List Nat) (hLen : Nat) (em : List Nat) : List Nat :=
  xorBytes (em.drop (1 + hLen))
    (mgf1 hash hLen (em.drop (1 + hLen)).length (oaepSeedRec hash hLen em))

/-- Parsing phase of `decryptOAEP` on the decrypted encoded message: check the
leading zero byte and `lHash`, locate the `0x01` separator, return the tail.
All failures surface the single `ErrDecryption` error. -/
def oaepUnpad (hash : List Nat → List Nat) (hLen : Nat) (em : List Nat) :
    Except String (List Nat) :=
  let db := oaepDBRec hash hLen em
  let rest := db.drop hLen
  match findSep rest with
  | none => .error errDecryption
  | some idx =>
    if em.headD 0 = 0 ∧ db.take hLen = hash [] then .ok (rest.drop (idx + 1))
    else .error errDecryption

/-- `rsa.DecryptOAEP(hash, random, priv, ciphertext, nil)`: check the public
part of the key, the length guards, the range of the ciphertext value
(`decrypt` rejects values above the modulus), then exponentiate and unpad. -/
def decryptOAEP (hash : List Nat → List Nat) (hLen : Nat) (sk : PrivateKey)
    (ct : List Nat) : Except String (List Nat) :=
  match checkPub sk.pub with
  | some err => .error err
  | none =>
    let k := byteLen sk.pub.n
    if ct.length > k ∨ k < 2 * hLen + 2 then .error errDecryption
    else
      let c := bytesToNat ct
      if sk.pub.n = 0 ∨ c > sk.pub.n then .error errDecryption
      else oaepUnpad hash hLen (natToBytes k (c ^ sk.d % sk.pub.n))

theorem oaepDB_length (hash : List Nat → List Nat) (hLen k : Nat) (msg : List Nat)
    (hHashLen : ∀ l, (hash l).length = hLen)
    (hmsg : msg.length + 2 * hLen + 2 ≤ k) :
    (oaepDB hash hLen k msg).length = k - hLen - 1 := by
  simp only [oaepDB, List.length_append, List.length_replicate, List.length_cons, hHashLen]
  omega

theorem oaepMaskedDB_length (hash : List Nat → List Nat) (hLen k : Nat) (msg seed : List Nat)
    (hHashLen : ∀ l, (hash l).length = hLen) (hhLen : 0 < hLen)
    (hmsg : msg.length + 2 * hLen + 2 ≤ k) :
    (oaepMaskedDB hash hLen k msg seed).length = k - hLen - 1 := by
  simp only [oaepMaskedDB, xorBytes_length,
    mgf1_length hash hLen _ seed hHashLen hhLen,
    oaepDB_length hash hLen k msg hHashLen hmsg]
  omega

theorem oaepMaskedSeed_length (hash : List Nat → List Nat) (hLen k : Nat) (msg seed : List Nat)
    (hHashLen : ∀ l, (hash l).length = hLen) (hhLen : 0 < hLen) :
    (oaepMaskedSeed hash hLen k msg seed).length = seed.length := by
  simp only [oaepMaskedSeed, xorBytes_length,
    mgf1_length hash hLen _ _ hHashLen hhLen]
  omega

theorem oaepEM_length (hash : List Nat → List Nat) (hLen k : Nat) (msg seed : List Nat)
    (hHashLen : ∀ l, (hash l).length = hLen) (hhLen : 0 < hLen)
    (hmsg : msg.length + 2 * hLen + 2 ≤ k) (hseedLen : seed.length = hLen) :
    (oaepEM hash hLen k msg seed).length = k := by
  simp only [oaepEM, List.length_cons, List.length_append,
    oaepMaskedSeed_length hash hLen k msg seed hHashLen hhLen, hseedLen,
    oaepMaskedDB_length hash hLen k msg seed hHashLen hhLen hmsg]
  omega

theorem oaepDB_lt (hash : List Nat → List Nat) (hLen k : Nat) (msg : List Nat)
    (hHashLt : ∀ l, ∀ b ∈ hash l, b < 256) (hmsgLt : ∀ b ∈ msg, b < 256) :
    ∀ b ∈ oaepDB hash hLen k msg, b < 256 := by
  intro b hb
  simp only [oaepDB, List.mem_append, List.mem_cons, List.mem_replicate] at hb
  rcases hb with (h | h) | h | h
  · exact hHashLt [] b h
  · omega
  · omega
  · exact hmsgLt b h

theorem oaepMaskedDB_lt (hash : List Nat → List Nat) (hLen k : Nat) (msg seed : List Nat)
    (hHashLt : ∀ l, ∀ b ∈ hash l, b < 256) (hmsgLt : ∀ b ∈ msg, b < 256) :
    ∀ b ∈ oaepMaskedDB hash hLen k msg seed, b < 256 :=
  xorBytes_lt _ _ (oaepDB_lt hash hLen k msg hHashLt hmsgLt)
    (mgf1_lt hash hLen _ seed hHashLt)

theorem oaepMaskedSeed_lt (hash : List Nat → List Nat) (hLen k : Nat) (msg seed : List Nat)
    (hHashLt : ∀ l, ∀ b ∈ hash l, b < 256) (hseedLt : ∀ b ∈ seed, b < 256) :
    ∀ b ∈ oaepMaskedSeed hash hLen k msg seed, b < 256 :=
  xorBytes_lt _ _ hseedLt (mgf1_lt hash hLen _ _ hHashLt)

theorem oaepEM_lt (hash : List Nat → List Nat) (hLen k : Nat) (msg seed : List Nat)
    (hHashLt : ∀ l, ∀ b ∈ hash l, b < 256) (hmsgLt : ∀ b ∈ msg, b < 256)
    (hseedLt : ∀ b ∈ seed, b < 256) :
    ∀ b ∈ oaepEM hash hLen k msg seed, b < 256 := by
  intro b hb
  unfold oaepEM at hb
  simp only [List.mem_cons, List.mem_append] at hb
  rcases hb with h | h | h
  · omega
  · exact oaepMaskedSeed_lt hash hLen k msg seed hHashLt hseedLt b h
  · exact oaepMaskedDB_lt hash hLen k msg seed hHashLt hmsgLt b h

theorem oaepEM_drop_one (hash : List Nat → List Nat) (hLen k : Nat) (msg seed : List Nat) :
    (oaepEM hash hLen k msg seed).drop 1 =
      oaepMaskedSeed hash hLen k msg seed ++ oaepMaskedDB hash hLen k msg seed := rfl

theorem oaepEM_seed_slice (hash : List Nat → List Nat) (hLen k : Nat) (msg seed : List Nat)
    (hHashLen : ∀ l, (hash l).length = hLen) (hhLen : 0 < hLen)
    (hseedLen : seed.length = hLen) :
    ((oaepEM hash hLen k msg seed).drop 1).take hLen = oaepMaskedSeed hash hLen k msg seed := by
  rw [oaepEM_drop_one]
  exact List.take_left' (by
    rw [oaepMaskedSeed_length hash hLen k msg seed hHashLen hhLen, hseedLen])

theorem oaepEM_db_slice (hash : List Nat → List Nat) (hLen k : Nat) (msg seed : List Nat)
    (hHashLen : ∀ l, (hash l).length = hLen) (hhLen : 0 < hLen)
    (hseedLen : seed.length = hLen) :
    (oaepEM hash hLen k msg seed).drop (1 + hLen) = oaepMaskedDB hash hLen k msg seed := by
  have h1 : (oaepEM hash hLen k msg seed).drop (1 + hLen) =
      ((oaepEM hash hLen k msg seed).drop 1).drop hLen := by
    rw [List.drop_drop, Nat.add_comm]
  rw [h1, oaepEM_drop_one]
  exact List.drop_left' (by
    rw [oaepMaskedSeed_length hash hLen k msg seed hHashLen hhLen, hseedLen])

theorem oaepSeedRec_oaepEM (hash : List Nat → List Nat) (hLen k : Nat) (msg seed : List Nat)
    (hHashLen : ∀ l, (hash l).length = hLen) (hhLen : 0 < hLen)
    (hseedLen : seed.length = hLen) :
    oaepSeedRec hash hLen (oaepEM hash hLen k msg seed) = seed := by
  unfold oaepSeedRec
  rw [oaepEM_seed_slice hash hLen k msg seed hHashLen hhLen hseedLen,
    oaepEM_db_slice hash hLen k msg seed hHashLen hhLen hseedLen,
    oaepMaskedSeed_length hash hLen k msg seed hHashLen hhLen]
  unfold oaepMaskedSeed
  apply xorBytes_cancel
  rw [mgf1_length hash hLen _ _ hHashLen hhLen]

theorem oaepDBRec_oaepEM (hash : List Nat → List Nat) (hLen k : Nat) (msg seed : List Nat)
    (hHashLen : ∀ l, (hash l).length = hLen) (hhLen : 0 < hLen)
    (hmsg : msg.length + 2 * hLen + 2 ≤ k) (hseedLen : seed.length = hLen) :
    oaepDBRec hash hLen (oaepEM hash hLen k msg seed) = oaepDB hash hLen k msg := by
  unfold oaepDBRec
  rw [oaepEM_db_slice hash hLen k msg seed hHashLen hhLen hseedLen,
    oaepSeedRec_oaepEM hash hLen k msg seed hHashLen hhLen hseedLen]
  have hlen : (oaepMaskedDB hash hLen k msg seed).length = (oaepDB hash hLen k msg).length := by
    rw [oaepMaskedDB_length hash hLen k msg seed hHashLen hhLen hmsg,
      oaepDB_length hash hLen k msg hHashLen hmsg]
  rw [hlen]
  unfold oaepMaskedDB
  apply xorBytes_cancel
  rw [mgf1_length hash hLen _ _ hHashLen hhLen]

theorem oaepUnpad_oaepEM (hash : List Nat → List Nat) (hLen k : Nat) (msg seed : List Nat)
    (hHashLen : ∀ l, (hash l).length = hLen) (hhLen : 0 < hLen)
    (hmsg : msg.length + 2 * hLen + 2 ≤ k) (hseedLen : seed.length = hLen) :
    oaepUnpad hash hLen (oaepEM hash hLen k msg seed) = .ok msg := by
  have hassoc : oaepDB hash hLen k msg =
      hash [] ++ (List.replicate (k - msg.length - 2 * hLen - 2) 0 ++ 1 :: msg) := by
    simp [oaepDB, List.append_assoc]
  have hdrop : (oaepDB hash hLen k msg).drop hLen =
      List.replicate (k - msg.length - 2 * hLen - 2) 0 ++ 1 :: msg := by
    rw [hassoc]; exact List.drop_left' (hHashLen [])
  have htake : (oaepDB hash hLen k msg).take hLen = hash [] := by
    rw [hassoc]; exact List.take_left' (hHashLen [])
  have hhead : (oaepEM hash hLen k msg seed).headD 0 = 0 := rfl
  simp only [oaepUnpad, oaepDBRec_oaepEM hash hLen k msg seed hHashLen hhLen hmsg hseedLen,
    hdrop, htake, findSep_replicate, hhead, and_self, if_true, drop_replicate_succ]

/-- Round trip of `rsa.EncryptOAEP` / `rsa.DecryptOAEP` for a valid RSA keypair
`n = p * q`, `e * d ≡ 1 (mod (p-1)(q-1))`, and a plaintext within the size
bound. -/
theorem decryptOAEP_encryptOAEP
    (hash : List Nat → List Nat) (hLen p q e d : Nat) (msg seed : List Nat)
    (hHashLen : ∀ l, (hash l).length = hLen)
    (hHashLt : ∀ l, ∀ b ∈ hash l, b < 256)
    (hhLen : 0 < hLen)
    (hp : p.Prime) (hq : q.Prime) (hpq : p ≠ q)
    (he2 : 2 ≤ e) (heMax : e ≤ 2 ^ 31 - 1) (hd1 : 1 ≤ d)
    (hed : e * d ≡ 1 [MOD (p - 1) * (q - 1)])
    (hk : 2 * hLen + 2 ≤ byteLen (p * q))
    (hmsg : msg.length + 2 * hLen + 2 ≤ byteLen (p * q))
    (hmsgLt : ∀ b ∈ msg, b < 256)
    (hseedLen : seed.length = hLen) (hseedLt : ∀ b ∈ seed, b < 256) :
    ∃ ct, encryptOAEP hash hLen ⟨p * q, e⟩ msg seed = .ok ct ∧
      decryptOAEP hash hLen ⟨⟨p * q, e⟩, d⟩ ct = .ok msg := by
  have hn2 : 4 ≤ p * q := Nat.mul_le_mul hp.two_le hq.two_le
  have hn0 : 0 < p * q := by omega
  have hcheck : checkPub ⟨p * q, e⟩ = none := by
    simp only [checkPub]
    rw [if_neg (by omega), if_neg (by omega)]
  have hguard : ¬ ((msg.length : Int) > (byteLen (p * q) : Int) - 2 * (hLen : Int) - 2) := by
    omega
  have hemLen : (oaepEM hash hLen (byteLen (p * q)) msg seed).length = byteLen (p * q) :=
    oaepEM_length hash hLen _ msg seed hHashLen hhLen hmsg hseedLen
  have hemLt : ∀ b ∈ oaepEM hash hLen (byteLen (p * q)) msg seed, b < 256 :=
    oaepEM_lt hash hLen _ msg seed hHashLt hmsgLt hseedLt
  have hemCons : oaepEM hash hLen (byteLen (p * q)) msg seed =
      0 :: (oaepMaskedSeed hash hLen (byteLen (p * q)) msg seed ++
        oaepMaskedDB hash hLen (byteLen (p * q)) msg seed) := rfl
  have hemVal : bytesToNat (oaepEM hash hLen (byteLen (p * q)) msg seed) < p * q := by
    have htail : (oaepMaskedSeed hash hLen (byteLen (p * q)) msg seed ++
        oaepMaskedDB hash hLen (byteLen (p * q)) msg seed).length = byteLen (p * q) - 1 := by
      rw [hemCons] at hemLen
      simp only [List.length_cons] at hemLen
      omega
    have htailLt : ∀ b ∈ oaepMaskedSeed hash hLen (byteLen (p * q)) msg seed ++
        oaepMaskedDB hash hLen (byteLen (p * q)) msg seed, b < 256 := by
      intro b hb
      exact hemLt b (by rw [hemCons]; exact List.mem_cons_of_mem _ hb)
    calc bytesToNat (oaepEM hash hLen (byteLen (p * q)) msg seed)
        = bytesToNat (oaepMaskedSeed hash hLen (byteLen (p * q)) msg seed ++
            oaepMaskedDB hash hLen (byteLen (p * q)) msg seed) := by
          rw [hemCons, bytesToNat_cons_zero]
      _ < 256 ^ (byteLen (p * q) - 1) := by
          have := bytesToNat_lt _ htailLt
          rwa [htail] at this
      _ ≤ p * q := byteLen_le (p * q) hn0
  have h1 : 1 ≤ e * d := Nat.mul_pos (by omega) (by omega)
  refine ⟨natToBytes (byteLen (p * q))
    (bytesToNat (oaepEM hash hLen (byteLen (p * q)) msg seed) ^ e % (p * q)), ?_, ?_⟩
  · simp only [encryptOAEP, hcheck]
    rw [if_neg hguard]
  · have hctlen : (natToBytes (byteLen (p * q))
        (bytesToNat (oaepEM hash hLen (byteLen (p * q)) msg seed) ^ e % (p * q))).length =
        byteLen (p * q) := natToBytes_length _ _
    have hmodlt : bytesToNat (oaepEM hash hLen (byteLen (p * q)) msg seed) ^ e % (p * q) <
        p * q := Nat.mod_lt _ hn0
    have hctval : bytesToNat (natToBytes (byteLen (p * q))
        (bytesToNat (oaepEM hash hLen (byteLen (p * q)) msg seed) ^ e % (p * q))) =
        bytesToNat (oaepEM hash hLen (byteLen (p * q)) msg seed) ^ e % (p * q) :=
      bytesToNat_natToBytes _ _ (lt_trans hmodlt (byteLen_lt (p * q)))
    simp only [decryptOAEP, hcheck]
    rw [if_neg (by omega : ¬ ((natToBytes (byteLen (p * q))
      (bytesToNat (oaepEM hash hLen (byteLen (p * q)) msg seed) ^ e % (p * q))).length >
        byteLen (p * q) ∨ byteLen (p * q) < 2 * hLen + 2))]
    rw [if_neg (by omega : ¬ (p * q = 0 ∨ bytesToNat (natToBytes (byteLen (p * q))
      (bytesToNat (oaepEM hash hLen (byteLen (p * q)) msg seed) ^ e % (p * q))) > p * q))]
    rw [hctval, rsa_correct p q e d _ hp hq hpq h1 hed hemVal,
      natToBytes_bytesToNat _ _ hemLen hemLt]
    exact oaepUnpad_oaepEM hash hLen _ msg seed hHashLen hhLen hmsg hseedLen

/-- The dynamic argument of `New(key interface{})`: a `*rsa.PublicKey` (possibly
nil), a `*rsa.PrivateKey` (possibly nil), or a value of any other dynamic type,
carried with the type name that `%T` would print for it. -/
inductive Key where
  | pubKey : Option PublicKey → Key
  | privKey : Option PrivateKey → Key
  | other : String → Key
deriving DecidableEq, Repr

/-- The `RSA` struct of `rsaoeap.go`: both fields are pointers, so either may
be nil. -/
structure RSA where
  pub : Option PublicKey
  priv : Option PrivateKey
deriving DecidableEq, Repr

/-- `New` from `rsaoeap.go`: type-switch on the key.  For a `*rsa.PrivateKey`
the struct literal takes `&t.PublicKey`, which dereferences `t`; on a nil
private-key pointer this is a runtime nil-pointer panic. -/
def New : Key → GoResult RSA
  | .pubKey t => .ok ⟨t, none⟩
  | .privKey none => .panic goNilPointerPanic
  | .privKey (some t) => .ok ⟨some t.pub, some t⟩
  | .other s => .error ("could not create RSA cipher from " ++ s)

/-- `RSA.Encrypt` from `rsaoeap.go`: `rsa.EncryptOAEP(sha512.New(), rand.Reader,
c.pub, plaintext, nil)`.  `sha512.New().Size()` is 64; `seed` is the randomness
read from `rand.Reader`.  `EncryptOAEP` immediately passes `c.pub` to
`checkPub`, which dereferences it, so a nil public key panics. -/
def RSA.Encrypt (sha512 : List Nat → List Nat) (c : RSA) (plaintext seed : List Nat) :
    GoResult (List Nat) :=
  match c.pub with
  | none => .panic goNilPointerPanic
  | some pk => GoResult.ofExcept (encryptOAEP sha512 64 pk plaintext seed)

/-- `RSA.Decrypt` from `rsaoeap.go`: the `c.priv == nil` guard runs first and
returns the missing-private-key error before the ciphertext is used; otherwise
`rsa.DecryptOAEP(sha512.New(), rand.Reader, c.priv, ciphertext, nil)`. -/
def RSA.Decrypt (sha512 : List Nat → List Nat) (c : RSA) (ciphertext : List Nat) :
    GoResult (List Nat) :=
  match c.priv with
  | none => .error errMissingPrivateKey
  | some sk => GoResult.ofExcept (decryptOAEP sha512 64 sk ciphertext)

/-- `RSA.EncryptionAlgorithm` from `rsaoeap.go`. -/
def RSA.EncryptionAlgorithm (_ : RSA) : String := "RSA-OAEP-SHA512"

/-- The 64-character standard base64 alphabet (RFC 4648), used by
`base64.StdEncoding` and `base64.RawStdEncoding`. -/
def base64Alphabet : List Char :=
  "ABCDEFGHIJKLMNOPQRSTUVWXYZabcdefghijklmnopqrstuvwxyz0123456789+/".toList

/-- Character of the standard base64 alphabet at a 6-bit index. -/
def base64Char (i : Nat) : Char := base64Alphabet.getD i 'A'

/-- `base64.RawStdEncoding.EncodeToString`: standard alphabet, no `=` padding;
groups of three bytes become four characters, a remainder of one or two bytes
becomes two or three characters. -/
def base64RawStd : List Nat → List Char
  | [] => []
  | [b1] => [base64Char (b1 / 4), base64Char (b1 % 4 * 16)]
  | [b1, b2] =>
      [base64Char (b1 / 4), base64Char (b1 % 4 * 16 + b2 / 16), base64Char (b2 % 16 * 4)]
  | b1 :: b2 :: b3 :: rest =>
      base64Char (b1 / 4) :: base64Char (b1 % 4 * 16 + b2 / 16) ::
        base64Char (b2 % 16 * 4 + b3 / 64) :: base64Char (b3 % 64) :: base64RawStd rest

/-- `RSA.PublicKeySignature` from `rsaoeap.go`:
`x509.MarshalPKIXPublicKey(c.pub)` (an external DER codec, modelled as the
abstract `marshalPKIX` argument), then SHA-256 (abstract `sha256` argument),
then `fmt.Sprintf("SHA256:%s", base64.RawStdEncoding.EncodeToString(sum[:]))`.
Marshalling a nil `*rsa.PublicKey` dereferences it and panics. -/
def RSA.PublicKeySignature (marshalPKIX : PublicKey → Except String (List Nat))
    (sha256 : List Nat → List Nat) (c : RSA) : GoResult String :=
  match c.pub with
  | none => .panic goNilPointerPanic
  | some pk =>
    match marshalPKIX pk with
    | .error err => .error err
    | .ok data => .ok ("SHA256:" ++ String.mk (base64RawStd (sha256 data)))

/-- C9: `EncryptionAlgorithm` returns the static string "RSA-OAEP-SHA512" for
every instance and every call, independent of the runtime key held. -/
theorem encryptionAlgorithm_constant (c : RSA) :
    RSA.EncryptionAlgorithm c = "RSA-OAEP-SHA512" := rfl

/-- C2: a cipher constructed by `New` from a public key alone has no private
key, and `Decrypt` fails with the missing-private-key error uniformly in the
ciphertext argument — the guard runs before any cryptographic operation, so
the ciphertext bytes are never examined. -/
theorem decrypt_without_private_key (sha512 : List Nat → List Nat)
    (t : Option PublicKey) (c : RSA) (ct : List Nat)
    (hNew : New (Key.pubKey t) = .ok c) :
    RSA.Decrypt sha512 c ct = .error errMissingPrivateKey := by
  simp only [New] at hNew
  injection hNew with h
  subst h
  rfl

/-- Witness for C2 at a concrete public key and ciphertext. -/
theorem decrypt_without_private_key_witness :
    RSA.Decrypt (fun _ => List.replicate 64 0) ⟨some ⟨33, 3⟩, none⟩ [1, 2, 3] =
      .error errMissingPrivateKey :=
  decrypt_without_private_key (fun _ => List.replicate 64 0) (some ⟨33, 3⟩)
    ⟨some ⟨33, 3⟩, none⟩ [1, 2, 3] rfl

/-- C3 counterexample: on the nil private-key value, `New` neither succeeds
nor returns the invalid-key-type error — building `&t.PublicKey` panics. -/
theorem new_nil_private_key_panics :
    New (Key.privKey none) = .panic goNilPointerPanic := rfl

/-- C3 (amended): `New` succeeds on every public-key value (nil included) and
on every non-nil private-key value; the nil private-key value panics while the
paired public key is derived; every other input type fails with the
invalid-key-type error identifying the unsupported type, and yields no
instance. -/
theorem new_key_dispatch :
    (∀ t : Option PublicKey, New (Key.pubKey t) = .ok ⟨t, none⟩) ∧
    (∀ sk : PrivateKey, New (Key.privKey (some sk)) = .ok ⟨some sk.pub, some sk⟩) ∧
    New (Key.privKey none) = .panic goNilPointerPanic ∧
    (∀ s : String, New (Key.other s) = .error ("could not create RSA cipher from " ++ s)) :=
  ⟨fun _ => rfl, fun _ => rfl, rfl, fun _ => rfl⟩

/-- C4 counterexample: `New` accepts the nil public-key value and returns a
successfully constructed instance whose public key is absent. -/
theorem new_nil_public_key_ok :
    New (Key.pubKey none) = .ok ⟨none, none⟩ := rfl

/-- C4 (amended): an instance built from a non-nil public key stores exactly
that key, an instance built from a non-nil private key derives and stores the
paired public key, and no instance ever holds a private key without its paired
public key; but an instance built from the nil public-key value has no public
key at all. -/
theorem constructed_instances_have_keys :
    (∀ pk : PublicKey, ∀ c : RSA, New (Key.pubKey (some pk)) = .ok c →
      c.pub = some pk ∧ c.priv = none) ∧
    (∀ sk : PrivateKey, ∀ c : RSA, New (Key.privKey (some sk)) = .ok c →
      c.pub = some sk.pub ∧ c.priv = some sk) ∧
    (∀ k : Key, ∀ c : RSA, ∀ sk : PrivateKey, New k = .ok c → c.priv = some sk →
      c.pub = some sk.pub) := by
  refine ⟨?_, ?_, ?_⟩
  · intro pk c hNew
    simp only [New] at hNew
    injection hNew with h
    subst h
    exact ⟨rfl, rfl⟩
  · intro sk c hNew
    simp only [New] at hNew
    injection hNew with h
    subst h
    exact ⟨rfl, rfl⟩
  · intro k c sk hNew hpriv
    cases k with
    | pubKey t =>
      simp only [New] at hNew
      injection hNew with h
      subst h
      simp at hpriv
    | privKey t =>
      cases t with
      | none => simp [New] at hNew
      | some t =>
        simp only [New] at hNew
        injection hNew with h
        subst h
        simp only at hpriv
        injection hpriv with h2
        subst h2
        rfl
    | other s => simp [New] at hNew

/-- Witness for C4's amended statement: the private-key construction at a
concrete key stores the derived public key and the private key. -/
theorem constructed_instances_have_keys_witness :
    (RSA.mk (some ⟨33, 3⟩) (some ⟨⟨33, 3⟩, 7⟩)).pub = some (⟨⟨33, 3⟩, 7⟩ : PrivateKey).pub ∧
    (RSA.mk (some ⟨33, 3⟩) (some ⟨⟨33, 3⟩, 7⟩)).priv = some ⟨⟨33, 3⟩, 7⟩ :=
  constructed_instances_have_keys.2.1 ⟨⟨33, 3⟩, 7⟩ (RSA.mk (some ⟨33, 3⟩) (some ⟨⟨33, 3⟩, 7⟩)) rfl

/-- C10 counterexample: `Encrypt` on the instance built from the nil public
key panics inside the library (which dereferences the key) instead of
returning through the error branch. -/
theorem encrypt_nil_public_key_panics :
    RSA.Encrypt (fun _ => List.replicate 64 0) ⟨none, none⟩ [1] [2] =
      .panic goNilPointerPanic := rfl

/-- C10 (amended): `New` accepts the nil public-key value and succeeds with an
instance whose public key is absent, so the "public key always present"
invariant fails; on such an instance `Encrypt` does not return an error but
panics on the nil dereference, for every plaintext and seed. -/
theorem new_nil_public_key_encrypt_panics (sha512 : List Nat → List Nat)
    (pt seed : List Nat) :
    New (Key.pubKey none) = .ok ⟨none, none⟩ ∧
    (⟨none, none⟩ : RSA).pub = none ∧
    RSA.Encrypt sha512 ⟨none, none⟩ pt seed = .panic goNilPointerPanic :=
  ⟨rfl, rfl, rfl⟩

/-- C5: with the 64-byte OAEP hash, `Encrypt` on a plaintext longer than
`k - 2*64 - 2` bytes (`k` the key size in bytes) fails with the
message-too-long encryption error and returns no ciphertext, while a plaintext
of exactly the boundary length succeeds. -/
theorem encrypt_size_bound (sha512 : List Nat → List Nat) (pk : PublicKey) (c : RSA)
    (pt seed : List Nat)
    (hNew : New (Key.pubKey (some pk)) = .ok c)
    (he2 : 2 ≤ pk.e) (heMax : pk.e ≤ 2 ^ 31 - 1)
    (hk : 2 * 64 + 2 ≤ byteLen pk.n) :
    (pt.length > byteLen pk.n - 2 * 64 - 2 →
      RSA.Encrypt sha512 c pt seed = .error errMessageTooLong) ∧
    (pt.length = byteLen pk.n - 2 * 64 - 2 →
      ∃ ct, RSA.Encrypt sha512 c pt seed = .ok ct) := by
  simp only [New] at hNew
  injection hNew with h
  subst h
  have hcheck : checkPub pk = none := by
    simp only [checkPub]
    rw [if_neg (by omega), if_neg (by omega)]
  constructor
  · intro hgt
    simp only [RSA.Encrypt, encryptOAEP, hcheck]
    split_ifs with hc
    · rfl
    · exfalso
      omega
  · intro heq
    refine ⟨natToBytes (byteLen pk.n)
      (bytesToNat (oaepEM sha512 64 (byteLen pk.n) pt seed) ^ pk.e % pk.n), ?_⟩
    simp only [RSA.Encrypt, encryptOAEP, hcheck]
    split_ifs with hc
    · exfalso
      omega
    · rfl

set_option maxRecDepth 40000 in
/-- Witness for C5 at a 130-byte modulus: the boundary length is 0, so the
empty plaintext succeeds and a 1-byte plaintext fails. -/
theorem encrypt_size_bound_witness :
    RSA.Encrypt (fun _ => List.replicate 64 0) ⟨some ⟨2 ^ 1033, 3⟩, none⟩ [0]
      (List.replicate 64 1) = .error errMessageTooLong ∧
    ∃ ct, RSA.Encrypt (fun _ => List.replicate 64 0) ⟨some ⟨2 ^ 1033, 3⟩, none⟩ []
      (List.replicate 64 1) = .ok ct := by
  constructor
  · exact (encrypt_size_bound (fun _ => List.replicate 64 0) ⟨2 ^ 1033, 3⟩
      ⟨some ⟨2 ^ 1033, 3⟩, none⟩ [0] (List.replicate 64 1) rfl (by norm_num)
      (by norm_num) (by decide)).1 (by decide)
  · exact (encrypt_size_bound (fun _ => List.replicate 64 0) ⟨2 ^ 1033, 3⟩
      ⟨some ⟨2 ^ 1033, 3⟩, none⟩ [] (List.replicate 64 1) rfl (by norm_num)
      (by norm_num) (by decide)).2 (by decide)

theorem base64Char_mem (i : Nat) (h : i < 64) : base64Char i ∈ base64Alphabet := by
  have hlen : base64Alphabet.length = 64 := rfl
  rw [base64Char, List.getD_eq_getElem base64Alphabet 'A' (by omega)]
  exact List.getElem_mem _

/-- Every character emitted by the unpadded standard base64 encoder on a byte
string lies in the 64-character standard alphabet; in particular no `=`
padding appears. -/
theorem base64RawStd_mem_alphabet : ∀ l : List Nat, (∀ b ∈ l, b < 256) →
    ∀ ch ∈ base64RawStd l, ch ∈ base64Alphabet := by
  intro l
  induction l using base64RawStd.induct with
  | case1 => intro _ ch hch; simp [base64RawStd] at hch
  | case2 b1 =>
    intro hlt ch hch
    have h1 : b1 < 256 := hlt b1 (by simp)
    simp only [base64RawStd, List.mem_cons, List.not_mem_nil, or_false] at hch
    rcases hch with rfl | rfl
    · exact base64Char_mem _ (by omega)
    · exact base64Char_mem _ (by omega)
  | case3 b1 b2 =>
    intro hlt ch hch
    have h1 : b1 < 256 := hlt b1 (by simp)
    have h2 : b2 < 256 := hlt b2 (by simp)
    simp only [base64RawStd, List.mem_cons, List.not_mem_nil, or_false] at hch
    rcases hch with rfl | rfl | rfl
    · exact base64Char_mem _ (by omega)
    · exact base64Char_mem _ (by omega)
    · exact base64Char_mem _ (by omega)
  | case4 b1 b2 b3 rest ih =>
    intro hlt ch hch
    have h1 : b1 < 256 := hlt b1 (by simp)
    have h2 : b2 < 256 := hlt b2 (by simp)
    have h3 : b3 < 256 := hlt b3 (by simp)
    simp only [base64RawStd, List.mem_cons] at hch
    rcases hch with rfl | rfl | rfl | rfl | hch
    · exact base64Char_mem _ (by omega)
    · exact base64Char_mem _ (by omega)
    · exact base64Char_mem _ (by omega)
    · exact base64Char_mem _ (by omega)
    · exact ih (fun b hb => hlt b (by simp [hb])) ch hch

/-- C6: `PublicKeySignature` is a pure function of the held public key: two
instances holding the same key give identical results; on success the result
is exactly `"SHA256:"` followed by the unpadded standard base64 encoding of
the SHA-256 digest of the DER `SubjectPublicKeyInfo` serialization; it fails
exactly when the serialization codec fails, propagating that error. -/
theorem publicKeySignature_spec (marshalPKIX : PublicKey → Except String (List Nat))
    (sha256 : List Nat → List Nat) (c c2 : RSA) (pk : PublicKey)
    (hc : c.pub = some pk) (hc2 : c2.pub = some pk) :
    RSA.PublicKeySignature marshalPKIX sha256 c =
      RSA.PublicKeySignature marshalPKIX sha256 c2 ∧
    (∀ data, marshalPKIX pk = .ok data →
      RSA.PublicKeySignature marshalPKIX sha256 c =
        .ok ("SHA256:" ++ String.mk (base64RawStd (sha256 data)))) ∧
    (∀ err, marshalPKIX pk = .error err →
      RSA.PublicKeySignature marshalPKIX sha256 c = .error err) := by
  rcases c with ⟨cp, cpriv⟩
  rcases c2 with ⟨cp2, cpriv2⟩
  simp only at hc hc2
  subst hc
  subst hc2
  refine ⟨rfl, ?_, ?_⟩
  · intro data hdata
    simp only [RSA.PublicKeySignature, hdata]
  · intro err herr
    simp only [RSA.PublicKeySignature, herr]

/-- Witness for C6 at a concrete key, serializer and digest function. -/
theorem publicKeySignature_spec_witness :
    RSA.PublicKeySignature (fun _ => .ok [1, 2, 3]) (fun _ => List.replicate 32 7)
        ⟨some ⟨33, 3⟩, none⟩ =
      RSA.PublicKeySignature (fun _ => .ok [1, 2, 3]) (fun _ => List.replicate 32 7)
        ⟨some ⟨33, 3⟩, some ⟨⟨33, 3⟩, 7⟩⟩ ∧
    (∀ data, (fun _ : PublicKey => (.ok [1, 2, 3] : Except String (List Nat))) ⟨33, 3⟩ = .ok data →
      RSA.PublicKeySignature (fun _ => .ok [1, 2, 3]) (fun _ => List.replicate 32 7)
          ⟨some ⟨33, 3⟩, none⟩ =
        .ok ("SHA256:" ++ String.mk (base64RawStd ((fun _ : List Nat => List.replicate 32 7) data)))) ∧
    (∀ err, (fun _ : PublicKey => (.ok [1, 2, 3] : Except String (List Nat))) ⟨33, 3⟩ = .error err →
      RSA.PublicKeySignature (fun _ => .ok [1, 2, 3]) (fun _ => List.replicate 32 7)
          ⟨some ⟨33, 3⟩, none⟩ = .error err) :=
  publicKeySignature_spec (fun _ => .ok [1, 2, 3]) (fun _ => List.replicate 32 7)
    ⟨some ⟨33, 3⟩, none⟩ ⟨some ⟨33, 3⟩, some ⟨⟨33, 3⟩, 7⟩⟩ ⟨33, 3⟩ rfl rfl

/-- C1: round trip of the `rsaoeap` cipher: for a cipher constructed by `New`
from a valid RSA private key (`n = p * q` distinct primes,
`e * d ≡ 1 (mod (p-1)(q-1))`) and any byte plaintext within the size bound
`k - 2*64 - 2`, `Decrypt` of `Encrypt` returns exactly the plaintext. -/
theorem rsa_round_trip (sha512 : List Nat → List Nat) (p q e d : Nat)
    (pt seed : List Nat) (c : RSA)
    (hHashLen : ∀ l, (sha512 l).length = 64)
    (hHashLt : ∀ l, ∀ b ∈ sha512 l, b < 256)
    (hp : p.Prime) (hq : q.Prime) (hpq : p ≠ q)
    (he2 : 2 ≤ e) (heMax : e ≤ 2 ^ 31 - 1) (hd1 : 1 ≤ d)
    (hed : e * d ≡ 1 [MOD (p - 1) * (q - 1)])
    (hk : 2 * 64 + 2 ≤ byteLen (p * q))
    (hpt : pt.length ≤ byteLen (p * q) - 2 * 64 - 2)
    (hptLt : ∀ b ∈ pt, b < 256)
    (hseedLen : seed.length = 64) (hseedLt : ∀ b ∈ seed, b < 256)
    (hNew : New (Key.privKey (some ⟨⟨p * q, e⟩, d⟩)) = .ok c) :
    ∃ ct, RSA.Encrypt sha512 c pt seed = .ok ct ∧
      RSA.Decrypt sha512 c ct = .ok pt := by
  simp only [New] at hNew
  injection hNew with h
  subst h
  obtain ⟨ct, henc, hdec⟩ := decryptOAEP_encryptOAEP sha512 64 p q e d pt seed
    hHashLen hHashLt (by omega) hp hq hpq he2 heMax hd1 hed hk (by omega) hptLt
    hseedLen hseedLt
  refine ⟨ct, ?_, ?_⟩
  · simp only [RSA.Encrypt, henc, GoResult.ofExcept]
  · simp only [RSA.Decrypt, hdec, GoResult.ofExcept]

/-- Witness modulus prime `p = 2^521 - 1` (Mersenne). -/
def witP : Nat := 2 ^ 521 - 1

/-- Witness modulus prime `q = 2^607 - 1` (Mersenne). -/
def witQ : Nat := 2 ^ 607 - 1

/-- Witness private exponent: the inverse of 13 modulo `(witP - 1) * (witQ - 1)`. -/
def witD : Nat := 2524261050204238640566475315611415373739014789191425724450251589088610869943305276430945100433192556320899269039179643387519997244593388098262835245920583060219571928703075637370964001862559163479740882847048328003827803309700482517931022493793574998896869929200725078050891641205705669928544068907915389727215698916233624053827813367046777

theorem witP_prime : Nat.Prime witP := by
  have h : witP = mersenne 521 := rfl
  rw [h]
  exact lucas_lehmer_sufficiency 521 (by norm_num) (by norm_num)

theorem witQ_prime : Nat.Prime witQ := by
  have h : witQ = mersenne 607 := rfl
  rw [h]
  exact lucas_lehmer_sufficiency 607 (by norm_num) (by norm_num)

set_option maxRecDepth 100000 in
/-- Witness for C1: the 1128-bit modulus `witP * witQ`, public exponent 13,
private exponent `witD`, plaintext "hello", and a concrete 64-byte seed. -/
theorem rsa_round_trip_witness :
    ∃ ct, RSA.Encrypt (fun _ => List.replicate 64 0)
        ⟨some ⟨witP * witQ, 13⟩, some ⟨⟨witP * witQ, 13⟩, witD⟩⟩
        [104, 101, 108, 108, 111] (List.replicate 64 7) = .ok ct ∧
      RSA.Decrypt (fun _ => List.replicate 64 0)
        ⟨some ⟨witP * witQ, 13⟩, some ⟨⟨witP * witQ, 13⟩, witD⟩⟩ ct =
        .ok [104, 101, 108, 108, 111] :=
  rsa_round_trip (fun _ => List.replicate 64 0) witP witQ 13 witD
    [104, 101, 108, 108, 111] (List.replicate 64 7)
    ⟨some ⟨witP * witQ, 13⟩, some ⟨⟨witP * witQ, 13⟩, witD⟩⟩
    (fun _ => rfl)
    (by intro l b hb; have := List.eq_of_mem_replicate hb; omega)
    witP_prime witQ_prime (by decide) (by decide) (by decide) (by decide)
    (by decide)
    (by decide)
    (by decide)
    (by decide)
    rfl
    (by intro b hb; have := List.eq_of_mem_replicate hb; omega)
    rfl

theorem GoResult.ofExcept_inj {α : Type} (a b : Except String α)
    (h : GoResult.ofExcept a = GoResult.ofExcept b) : a = b := by
  cases a <;> cases b <;> simp_all [GoResult.ofExcept]

theorem oaepEM_val_lt (hash : List Nat → List Nat) (hLen n : Nat) (msg seed : List Nat)
    (hHashLen : ∀ l, (hash l).length = hLen)
    (hHashLt : ∀ l, ∀ b ∈ hash l, b < 256)
    (hhLen : 0 < hLen) (hn0 : 0 < n)
    (hmsg : msg.length + 2 * hLen + 2 ≤ byteLen n)
    (hmsgLt : ∀ b ∈ msg, b < 256)
    (hseedLen : seed.length = hLen) (hseedLt : ∀ b ∈ seed, b < 256) :
    bytesToNat (oaepEM hash hLen (byteLen n) msg seed) < n := by
  have hemLen : (oaepEM hash hLen (byteLen n) msg seed).length = byteLen n :=
    oaepEM_length hash hLen _ msg seed hHashLen hhLen hmsg hseedLen
  have hemLt : ∀ b ∈ oaepEM hash hLen (byteLen n) msg seed, b < 256 :=
    oaepEM_lt hash hLen _ msg seed hHashLt hmsgLt hseedLt
  have hemCons : oaepEM hash hLen (byteLen n) msg seed =
      0 :: (oaepMaskedSeed hash hLen (byteLen n) msg seed ++
        oaepMaskedDB hash hLen (byteLen n) msg seed) := rfl
  have htail : (oaepMaskedSeed hash hLen (byteLen n) msg seed ++
      oaepMaskedDB hash hLen (byteLen n) msg seed).length = byteLen n - 1 := by
    rw [hemCons] at hemLen
    simp only [List.length_cons] at hemLen
    omega
  have htailLt : ∀ b ∈ oaepMaskedSeed hash hLen (byteLen n) msg seed ++
      oaepMaskedDB hash hLen (byteLen n) msg seed, b < 256 := by
    intro b hb
    exact hemLt b (by rw [hemCons]; exact List.mem_cons_of_mem _ hb)
  calc bytesToNat (oaepEM hash hLen (byteLen n) msg seed)
      = bytesToNat (oaepMaskedSeed hash hLen (byteLen n) msg seed ++
          oaepMaskedDB hash hLen (byteLen n) msg seed) := by
        rw [hemCons, bytesToNat_cons_zero]
    _ < 256 ^ (byteLen n - 1) := by
        have := bytesToNat_lt _ htailLt
        rwa [htail] at this
    _ ≤ n := byteLen_le n hn0

/-- Two OAEP encryptions of the same message under the same valid key but with
distinct padding seeds produce distinct results: the seed is recoverable from
the encoded message, which is recoverable from the ciphertext by RSA
injectivity. -/
theorem encryptOAEP_seed_inj (hash : List Nat → List Nat) (hLen p q e d : Nat)
    (msg seed1 seed2 : List Nat)
    (hHashLen : ∀ l, (hash l).length = hLen)
    (hHashLt : ∀ l, ∀ b ∈ hash l, b < 256)
    (hhLen : 0 < hLen)
    (hp : p.Prime) (hq : q.Prime) (hpq : p ≠ q)
    (he2 : 2 ≤ e) (heMax : e ≤ 2 ^ 31 - 1) (hd1 : 1 ≤ d)
    (hed : e * d ≡ 1 [MOD (p - 1) * (q - 1)])
    (_hk : 2 * hLen + 2 ≤ byteLen (p * q))
    (hmsg : msg.length + 2 * hLen + 2 ≤ byteLen (p * q))
    (hmsgLt : ∀ b ∈ msg, b < 256)
    (hseedLen1 : seed1.length = hLen) (hseedLt1 : ∀ b ∈ seed1, b < 256)
    (hseedLen2 : seed2.length = hLen) (hseedLt2 : ∀ b ∈ seed2, b < 256)
    (hne : seed1 ≠ seed2) :
    encryptOAEP hash hLen ⟨p * q, e⟩ msg seed1 ≠
      encryptOAEP hash hLen ⟨p * q, e⟩ msg seed2 := by
  intro heq
  have hn2 : 4 ≤ p * q := Nat.mul_le_mul hp.two_le hq.two_le
  have hn0 : 0 < p * q := by omega
  have hcheck : checkPub ⟨p * q, e⟩ = none := by
    simp only [checkPub]
    rw [if_neg (by omega), if_neg (by omega)]
  have hguard : ¬ ((msg.length : Int) > (byteLen (p * q) : Int) - 2 * (hLen : Int) - 2) := by
    omega
  have henc1 : encryptOAEP hash hLen ⟨p * q, e⟩ msg seed1 = .ok (natToBytes (byteLen (p * q))
      (bytesToNat (oaepEM hash hLen (byteLen (p * q)) msg seed1) ^ e % (p * q))) := by
    simp only [encryptOAEP, hcheck]
    rw [if_neg hguard]
  have henc2 : encryptOAEP hash hLen ⟨p * q, e⟩ msg seed2 = .ok (natToBytes (byteLen (p * q))
      (bytesToNat (oaepEM hash hLen (byteLen (p * q)) msg seed2) ^ e % (p * q))) := by
    simp only [encryptOAEP, hcheck]
    rw [if_neg hguard]
  rw [henc1, henc2] at heq
  injection heq with hceq
  have h1 : 1 ≤ e * d := Nat.mul_pos (by omega) (by omega)
  have hmod1 : bytesToNat (oaepEM hash hLen (byteLen (p * q)) msg seed1) ^ e % (p * q) <
      p * q := Nat.mod_lt _ hn0
  have hmod2 : bytesToNat (oaepEM hash hLen (byteLen (p * q)) msg seed2) ^ e % (p * q) <
      p * q := Nat.mod_lt _ hn0
  have hveq : bytesToNat (oaepEM hash hLen (byteLen (p * q)) msg seed1) ^ e % (p * q) =
      bytesToNat (oaepEM hash hLen (byteLen (p * q)) msg seed2) ^ e % (p * q) := by
    have hcast := congrArg bytesToNat hceq
    rwa [bytesToNat_natToBytes _ _ (lt_trans hmod1 (byteLen_lt _)),
      bytesToNat_natToBytes _ _ (lt_trans hmod2 (byteLen_lt _))] at hcast
  have hemVal1 : bytesToNat (oaepEM hash hLen (byteLen (p * q)) msg seed1) < p * q :=
    oaepEM_val_lt hash hLen (p * q) msg seed1 hHashLen hHashLt hhLen hn0 hmsg hmsgLt
      hseedLen1 hseedLt1
  have hemVal2 : bytesToNat (oaepEM hash hLen (byteLen (p * q)) msg seed2) < p * q :=
    oaepEM_val_lt hash hLen (p * q) msg seed2 hHashLen hHashLt hhLen hn0 hmsg hmsgLt
      hseedLen2 hseedLt2
  have hv : bytesToNat (oaepEM hash hLen (byteLen (p * q)) msg seed1) =
      bytesToNat (oaepEM hash hLen (byteLen (p * q)) msg seed2) := by
    have e1 := rsa_correct p q e d _ hp hq hpq h1 hed hemVal1
    have e2 := rsa_correct p q e d _ hp hq hpq h1 hed hemVal2
    rw [← e1, ← e2, hveq]
  have hem : oaepEM hash hLen (byteLen (p * q)) msg seed1 =
      oaepEM hash hLen (byteLen (p * q)) msg seed2 := by
    have hcast := congrArg (natToBytes (byteLen (p * q))) hv
    rwa [natToBytes_bytesToNat _ _
        (oaepEM_length hash hLen _ msg seed1 hHashLen hhLen hmsg hseedLen1)
        (oaepEM_lt hash hLen _ msg seed1 hHashLt hmsgLt hseedLt1),
      natToBytes_bytesToNat _ _
        (oaepEM_length hash hLen _ msg seed2 hHashLen hhLen hmsg hseedLen2)
        (oaepEM_lt hash hLen _ msg seed2 hHashLt hmsgLt hseedLt2)] at hcast
  have hrec := congrArg (oaepSeedRec hash hLen) hem
  rw [oaepSeedRec_oaepEM hash hLen _ msg seed1 hHashLen hhLen hseedLen1,
    oaepSeedRec_oaepEM hash hLen _ msg seed2 hHashLen hhLen hseedLen2] at hrec
  exact hne hrec

/-- C8: semantic-security determinization stated by the claim: for a fixed
plaintext within the size bound and any two distinct draws of the padding
randomness, the two `Encrypt` calls produce distinct results. -/
theorem encrypt_nondeterministic (sha512 : List Nat → List Nat) (p q e d : Nat)
    (pt seed1 seed2 : List Nat) (c : RSA)
    (hHashLen : ∀ l, (sha512 l).length = 64)
    (hHashLt : ∀ l, ∀ b ∈ sha512 l, b < 256)
    (hp : p.Prime) (hq : q.Prime) (hpq : p ≠ q)
    (he2 : 2 ≤ e) (heMax : e ≤ 2 ^ 31 - 1) (hd1 : 1 ≤ d)
    (hed : e * d ≡ 1 [MOD (p - 1) * (q - 1)])
    (hk : 2 * 64 + 2 ≤ byteLen (p * q))
    (hpt : pt.length ≤ byteLen (p * q) - 2 * 64 - 2)
    (hptLt : ∀ b ∈ pt, b < 256)
    (hseedLen1 : seed1.length = 64) (hseedLt1 : ∀ b ∈ seed1, b < 256)
    (hseedLen2 : seed2.length = 64) (hseedLt2 : ∀ b ∈ seed2, b < 256)
    (hne : seed1 ≠ seed2)
    (hNew : New (Key.pubKey (some ⟨p * q, e⟩)) = .ok c) :
    RSA.Encrypt sha512 c pt seed1 ≠ RSA.Encrypt sha512 c pt seed2 := by
  simp only [New] at hNew
  injection hNew with h
  subst h
  intro heq
  simp only [RSA.Encrypt] at heq
  exact encryptOAEP_seed_inj sha512 64 p q e d pt seed1 seed2 hHashLen hHashLt
    (by omega) hp hq hpq he2 heMax hd1 hed hk (by omega) hptLt
    hseedLen1 hseedLt1 hseedLen2 hseedLt2 hne
    (GoResult.ofExcept_inj _ _ heq)

set_option maxRecDepth 100000 in
/-- Witness for C8: the Mersenne witness key, plaintext "hello", and the two
distinct concrete seeds of all-zero and all-one bytes. -/
theorem encrypt_nondeterministic_witness :
    RSA.Encrypt (fun _ => List.replicate 64 0) ⟨some ⟨witP * witQ, 13⟩, none⟩
        [104, 101, 108, 108, 111] (List.replicate 64 0) ≠
      RSA.Encrypt (fun _ => List.replicate 64 0) ⟨some ⟨witP * witQ, 13⟩, none⟩
        [104, 101, 108, 108, 111] (List.replicate 64 1) :=
  encrypt_nondeterministic (fun _ => List.replicate 64 0) witP witQ 13 witD
    [104, 101, 108, 108, 111] (List.replicate 64 0) (List.replicate 64 1)
    ⟨some ⟨witP * witQ, 13⟩, none⟩
    (fun _ => rfl)
    (by intro l b hb; have := List.eq_of_mem_replicate hb; omega)
    witP_prime witQ_prime (by decide) (by decide) (by decide) (by decide)
    (by decide)
    (by decide)
    (by decide)
    (by decide)
    rfl
    (by intro b hb; have := List.eq_of_mem_replicate hb; omega)
    rfl
    (by intro b hb; have := List.eq_of_mem_replicate hb; omega)
    (by decide)
    rfl

/-- Every failure path of `decryptOAEP` on a key accepted by `checkPub`
surfaces the single `errDecryption` error: no distinction between malformed
ciphertext, wrong length, out-of-range value, or padding-check failure is
exposed to the caller. -/
theorem decryptOAEP_collapsed_errors (hash : List Nat → List Nat) (hLen : Nat)
    (sk : PrivateKey) (ct : List Nat) (hcheck : checkPub sk.pub = none) :
    (∃ pt, decryptOAEP hash hLen sk ct = .ok pt) ∨
      decryptOAEP hash hLen sk ct = .error errDecryption := by
  simp only [decryptOAEP, hcheck]
  split_ifs with h1 h2
  · right; rfl
  · right; rfl
  · simp only [oaepUnpad]
    rcases hfs : findSep ((oaepDBRec hash hLen
        (natToBytes (byteLen sk.pub.n) (bytesToNat ct ^ sk.d % sk.pub.n))).drop hLen) with _ | idx
    · right
      rfl
    · split_ifs with h3
      · left
        exact ⟨_, rfl⟩
      · right
        rfl
